import Mathlib

/-!
Verification of the Fortran parsing utilities of fprettify
(`fprettify/fparse_utils.py`): the `CharFilter` character scanner and the
`InputStream.next_fortran_line` logical-line assembler.

Text is modelled as `List Char`.  Python's `str` slices, `strip`, `replace`
and the regular expressions used by the source are translated into explicit
list functions below.  The scanner's recursive `__next__` and the assembler's
`while 1` loop are modelled with an explicit fuel parameter; a `none` result
means the fuel ran out (the fuel bounds used by the wrappers are proved or
checked to be sufficient on all concrete runs appearing in the theorems).
-/

namespace FparseUtils

abbrev Str := List Char

/-- Python `\s` (`re.UNICODE`) restricted to the ASCII whitespace characters;
tabs are expanded to spaces before any of the functions below run, and the
inputs considered here are ASCII. -/
def isSpaceP (c : Char) : Bool :=
  c = ' ' || c = '\t' || c = '\n' || c = '\r' || c = '\x0b' || c = '\x0c'

def isQuoteC (c : Char) : Bool :=
  c = '"' || c = '\''

/-- `FYPP_OPEN_RE = (#{|\${|@{)` searched in the two-character window:
it matches exactly when the window is one of the three open markers. -/
def fyppOpen2 : Str → Bool
  | [a, b] => (a = '#' || a = '$' || a = '@') && b = '{'
  | _ => false

/-- `FYPP_CLOSE_RE = (}#|}\$|}@)` searched in the two-character window. -/
def fyppClose2 : Str → Bool
  | [a, b] => a = '}' && (b = '#' || b = '$' || b = '@')
  | _ => false

/-- `FYPP_LINE_RE = ^(#!|#:|\$:|@:)` searched in the two-character window. -/
def fyppLine2 : Str → Bool
  | a :: b :: _ =>
      (a = '#' && (b = '!' || b = ':')) || ((a = '$' || a = '@') && b = ':')
  | _ => false

/-- `NOTFORTRAN_LINE_RE = ^(#!|#:|\$:|@:|#[^!:{}]|!)` searched in the (at
most two character) window: a leading `!`; `#` followed by anything except
`{` or `}` (the `#!`/`#:` alternatives and `#[^!:{}]` together cover every
second character except the braces); or `$`/`@` followed by `:`. -/
def notFortran2 : Str → Bool
  | '!' :: _ => true
  | '#' :: b :: _ => !(b = '{' || b = '}')
  | a :: b :: _ => (a = '$' || a = '@') && b = ':'
  | _ => false

/-- `line.replace("\t", 8 * " ")`. -/
def expandTabs (l : Str) : Str :=
  l.flatMap fun c => if c = '\t' then List.replicate 8 ' ' else [c]

def dropTrailing (p : Char → Bool) (l : Str) : Str :=
  (l.reverse.dropWhile p).reverse

/-- Python `str.strip()` (whitespace on both ends). -/
def stripWs (l : Str) : Str :=
  dropTrailing isSpaceP (l.dropWhile isSpaceP)

/-- Python `str.strip('&')`. -/
def stripAmp (l : Str) : Str :=
  dropTrailing (fun c => c = '&') (l.dropWhile fun c => c = '&')

/-- Python `str.rstrip('\n')`. -/
def rstripNl (l : Str) : Str :=
  dropTrailing (fun c => c = '\n') l

/-- Python `s.replace(pat, '', 1)`: remove the first occurrence of `pat`. -/
def replaceOnce (pat : Str) : Str → Str
  | [] => []
  | c :: r =>
      if pat.isPrefixOf (c :: r) then (c :: r).drop pat.length
      else c :: replaceOnce pat r

/-- `OMP_SUBS_RE = ^\s*(!\$(omp)?)` with `re.IGNORECASE`: skip leading
whitespace, require `!$`, optionally followed by `omp` in any case; the
returned group keeps the characters exactly as they appear in the line. -/
def ompSubsSearch (l : Str) : Option Str :=
  match l.dropWhile isSpaceP with
  | '!' :: '$' :: rest =>
      match rest with
      | a :: b :: c :: _ =>
          if a.toLower = 'o' && b.toLower = 'm' && c.toLower = 'p' then
            some ('!' :: '$' :: [a, b, c])
          else
            some ['!', '$']
      | _ => some ['!', '$']
  | _ => none

/-- The mutable state of a `CharFilter` object.  `remaining` models the
`enumerate(self._content)` iterator: it is the not-yet-consumed suffix of
`content`, so the current position is `content.length - remaining.length`.
The two-character lookahead `self._content[pos:pos+2]` therefore equals the
first two characters of `remaining`. -/
structure CharFilter where
  content : Str
  remaining : Str
  instring : Str
  infypp : Bool
  incomment : Str
  fComments : Bool
  fStrings : Bool
deriving DecidableEq

/-- `CharFilter.__init__`. -/
def CharFilter.init (s : Str) (fc fs : Bool) : CharFilter :=
  { content := s, remaining := s, instring := [], infypp := false,
    incomment := [], fComments := fc, fStrings := fs }

/-- `CharFilter.update`: rebind to new text and new filter flags, keeping
`_instring`, `_infypp` and `_incomment` untouched. -/
def CharFilter.update (cf : CharFilter) (s : Str) (fc fs : Bool) : CharFilter :=
  { cf with content := s, remaining := s, fComments := fc, fStrings := fs }

/-- Result of one `__next__` call: a yielded `(pos, char)` pair, or
`StopIteration` (used both for iterator exhaustion and for the comment
short-circuit). -/
inductive CFRes where
  | yield (pos : Nat) (c : Char)
  | stop
deriving DecidableEq

/-- The trailing checks of `__next__` (after the state transitions):
raise `StopIteration` inside a filtered comment, recurse past a filtered
string character, or return the pair. -/
inductive FinishD where
  | stop
  | skip
  | emit
deriving DecidableEq

def finishD (cf : CharFilter) : FinishD :=
  if cf.fComments && !cf.incomment.isEmpty then FinishD.stop
  else if cf.fStrings && !cf.instring.isEmpty then FinishD.skip
  else FinishD.emit

/-- Which return path of `__next__` applies after the state transitions:
`plain` falls through to the trailing checks (`finishD`); `closeSkip` is the
`self.__next__(); return self.__next__()` path after an interpolation close
marker with `filter_strings` set; `strSkip` is the `return self.__next__()`
path after a closing string delimiter with `filter_strings` set. -/
inductive StepKind where
  | plain
  | closeSkip
  | strSkip
deriving DecidableEq

/-- The state-transition block of `__next__` on the consumed character `c`
with two-character lookahead `char2`; `cf0` already has the character
consumed from `remaining`.  Matches the source's nested `if` structure. -/
def cfTrans (cf0 : CharFilter) (c : Char) (char2 : Str) :
    CharFilter × StepKind :=
  if cf0.instring.isEmpty then
    if cf0.incomment.isEmpty then
      if fyppOpen2 char2 then
        ({ cf0 with instring := char2, infypp := true }, StepKind.plain)
      else if notFortran2 char2 then
        ({ cf0 with incomment := [c] }, StepKind.plain)
      else if isQuoteC c then
        ({ cf0 with instring := [c] }, StepKind.plain)
      else (cf0, StepKind.plain)
    else (cf0, StepKind.plain)
  else
    if cf0.infypp then
      if fyppClose2 char2 then
        let cf1 : CharFilter := { cf0 with instring := [], infypp := false }
        if cf1.fStrings then (cf1, StepKind.closeSkip)
        else (cf1, StepKind.plain)
      else (cf0, StepKind.plain)
    else
      if isQuoteC c && cf0.instring = [c] then
        let cf1 : CharFilter := { cf0 with instring := [] }
        if cf1.fStrings then (cf1, StepKind.strSkip)
        else (cf1, StepKind.plain)
      else (cf0, StepKind.plain)

/-- `CharFilter.__next__`, with fuel bounding the recursion depth (every
recursive self-call first consumes one character of `remaining`, so any
fuel above `remaining.length` is enough, see `cfNextF_inv`).  Returns the
result together with the mutated scanner state. -/
def cfNextF : Nat → CharFilter → CFRes × CharFilter
  | 0, cf => (CFRes.stop, cf)
  | fuel + 1, cf =>
    match cf.remaining with
    | [] => (CFRes.stop, cf)
    | c :: rest =>
      let pos := cf.content.length - (rest.length + 1)
      match cfTrans { cf with remaining := rest } c (c :: rest.take 1) with
      | (cf1, StepKind.closeSkip) =>
          match cfNextF fuel cf1 with
          | (CFRes.stop, cfA) => (CFRes.stop, cfA)
          | (CFRes.yield _ _, cfA) => cfNextF fuel cfA
      | (cf1, StepKind.strSkip) => cfNextF fuel cf1
      | (cf1, StepKind.plain) =>
          match finishD cf1 with
          | FinishD.stop => (CFRes.stop, cf1)
          | FinishD.skip => cfNextF fuel cf1
          | FinishD.emit => (CFRes.yield pos c, cf1)

/-- One `__next__` call with sufficient fuel. -/
def cfNext (cf : CharFilter) : CFRes × CharFilter :=
  cfNextF (cf.remaining.length + 1) cf

/-- Iterate the scanner to exhaustion, collecting yielded characters
(the loop body of `filter_all`). -/
def cfRunF : Nat → CharFilter → Str
  | 0, _ => []
  | fuel + 1, cf =>
    match cfNext cf with
    | (CFRes.stop, _) => []
    | (CFRes.yield _ ch, cf') => ch :: cfRunF fuel cf'

/-- `CharFilter.filter_all`. -/
def CharFilter.filterAll (cf : CharFilter) : Str :=
  cfRunF (cf.remaining.length + 1) cf

/-- `CharFilter(s, fc, fs).filter_all()`. -/
def filterAllStr (s : Str) (fc fs : Bool) : Str :=
  (CharFilter.init s fc fs).filterAll

/-! ## The assembler: `InputStream.next_fortran_line` -/

/-- The queue state of an `InputStream`: the three parallel deques
(`line_buffer`, `endpos`, `what_omp`), the remaining input lines, and the
line counter.  `infile.readline()` at end of file returns the empty string,
modelled by an empty `infile` list. -/
structure ISState where
  lineBuffer : List Str
  endposQ : List Int
  ompQ : List Str
  infile : List Str
  lineNr : Nat
deriving DecidableEq

def readline (infile : List Str) : Str × List Str :=
  match infile with
  | [] => ([], [])
  | l :: ls => (l, ls)

/-- Output of the boundary-scanning `for pos, char in string_iter` loop:
the segments, end positions and sentinels appended to the queues, the last
yielded position (`none` models the initial `pos = -1`), the final
`line_start`, the current `what_omp` value, and the scanner state. -/
structure ScanOut where
  segs : List Str
  eps : List Int
  omps : List Str
  posO : Option Nat
  lineStart : Nat
  ompLeft : Str
  iter : CharFilter
deriving DecidableEq

/-- The `for pos, char in string_iter:` loop of `next_fortran_line`: on each
yielded character, record a segment when it is a `;` or the last position of
the line.  Fuel `line.length + 1` is sufficient since every yield consumes
at least one character of the scanner's remaining text. -/
def scanSplitF (line : Str) :
    Nat → CharFilter → Nat → Str → List Str → List Int → List Str →
    Option Nat → ScanOut
  | 0, cf, ls, omp, segs, eps, omps, po =>
      ⟨segs, eps, omps, po, ls, omp, cf⟩
  | fuel + 1, cf, ls, omp, segs, eps, omps, po =>
      match cfNext cf with
      | (CFRes.stop, cf') => ⟨segs, eps, omps, po, ls, omp, cf'⟩
      | (CFRes.yield p c, cf') =>
          if c = ';' || p + 1 = line.length then
            scanSplitF line fuel cf' (p + 1) []
              (segs ++ [(line.take (p + 1)).drop ls])
              (eps ++ [(p : Int) - (ls : Int)])
              (omps ++ [omp]) (some p)
          else
            scanSplitF line fuel cf' ls omp segs eps omps (some p)

/-- The fallback re-scan over `line[pos+1:]` with `filter_comments=False`:
find the first yielded position whose two-character window in the full line
matches `NOTFORTRAN_LINE_RE` (`base` is `pos + 1`). -/
def fallbackScanF (line : Str) (base : Nat) : Nat → CharFilter → Option Nat
  | 0, _ => none
  | fuel + 1, cf =>
      match cfNext cf with
      | (CFRes.stop, _) => none
      | (CFRes.yield pa _, cf') =>
          if notFortran2 ((line.drop (base + pa)).take 2) then some pa
          else fallbackScanF line base fuel cf'

/-- The boundary scan of one (sentinel-stripped) line: `string_iter.update(line)`
followed by the splitting loop, started with `line_start = 0`, `pos = -1`
and empty queues. -/
def boundaryScan (si : CharFilter) (line2 omp0 : Str) : ScanOut :=
  scanSplitF line2 (line2.length + 1) (si.update line2 true true) 0 omp0
    [] [] [] none

/-- Lines 182-186 of the source: detect and strip the conditional
compilation sentinel.  Returns `(what_omp, line-after-replace)`. -/
def sentinelSplit (line : Str) : Str × Str :=
  match ompSubsSearch line with
  | some s => (s, replaceOnce s line)
  | none => (([] : Str), line)

/-- The value of `pos + 1` after the splitting loop (`pos` starts at `-1`,
modelled by `none`). -/
def posP1O (po : Option Nat) : Nat :=
  match po with
  | none => 0
  | some p => p + 1

/-- The comment re-scan fallback of lines 206-208:
`CharFilter(line[pos+1:], filter_comments=False)` searched for the first
yielded position whose two-character window matches `NOTFORTRAN_LINE_RE`. -/
def commentFallback (line2 : Str) (posP1 : Nat) : Option Nat :=
  fallbackScanF line2 posP1 ((line2.length - posP1) + 1)
    (CharFilter.init (line2.drop posP1) false true)

/-- Does the text contain a two-character interpolation close marker in
any adjacent position?  Used to delimit payloads that the scanner skips
through without leaving the interpolation state. -/
def hasClosePair : Str → Bool
  | a :: b :: rest => fyppClose2 [a, b] || hasClosePair (b :: rest)
  | _ => false

/-- Lines 192-217 of the source: the queue entries contributed by one
physical line — the boundary-scan segments, extended by one of the two
fallbacks when the scan stopped before the end of the line, and by the
whole line with an empty sentinel when the buffer would stay empty.
Returns `(segments, end positions, sentinels)`. -/
def fillSegs (fyppCont : Bool) (lineBufferOld : List Str) (si : CharFilter)
    (line2 omp0 : Str) : List Str × List Int × List Str :=
  let so := boundaryScan si line2 omp0
  let posP1 : Nat := posP1O so.posO
  let posI : Int := match so.posO with | none => -1 | some p => (p : Int)
  let (segs2, eps2, omps2) :=
    if posP1 < line2.length then
      if fyppCont then
        (so.segs ++ [line2], so.eps ++ [(-1 : Int)], so.omps ++ [so.ompLeft])
      else
        match commentFallback line2 posP1 with
        | some posAdd =>
            (so.segs ++ [line2.drop so.lineStart],
             so.eps ++ [posI + (posAdd : Int) - (so.lineStart : Int)],
             so.omps ++ [so.ompLeft])
        | none => (so.segs, so.eps, so.omps)
    else (so.segs, so.eps, so.omps)
  if (lineBufferOld ++ segs2).isEmpty then
    (segs2 ++ [line2], eps2 ++ [(line2.length : Int)], omps2 ++ [([] : Str)])
  else (segs2, eps2, omps2)

/-- The `if not self.line_buffer:` block of `next_fortran_line`: read one
line, expand tabs, strip a conditional-compilation sentinel, scan for
statement boundaries, and fill the three queues.  `fyppCont` is the
caller's `fypp_cont` flag and `si` the caller's persistent `string_iter`
(whose post-scan state is returned). -/
def fillBuffer (fyppCont : Bool) (si : CharFilter) (st : ISState) :
    ISState × CharFilter :=
  let (raw, infile') := readline st.infile
  let line := expandTabs raw
  let sp := sentinelSplit line
  let so := boundaryScan si sp.2 sp.1
  let q := fillSegs fyppCont st.lineBuffer si sp.2 sp.1
  ({ st with
      lineBuffer := st.lineBuffer ++ q.1,
      endposQ := st.endposQ ++ q.2.1,
      ompQ := st.ompQ ++ q.2.2,
      infile := infile',
      lineNr := st.lineNr + 1 }, so.iter)

/-- The per-call accumulator of `next_fortran_line`: joined line, comment
list, original-line list, and the `continuation` / `fypp_cont` flags. -/
structure Acc where
  joined : Str
  comments : List Str
  lines : List Str
  contn : Bool
  fyppCont : Bool
deriving DecidableEq

/-- Processing of one popped non-empty segment (lines 227-261 of the
source): split at the recorded end position into code part and trailing
part, classify the trailing part as comment text, update the
`continuation` and `fypp_cont` flags, and extend the accumulated joined
line, comment list and original-line list. -/
def processSeg (endpos : Int) (omp seg : Str) (acc : Acc) : Acc :=
  let lines' := acc.lines ++ [omp ++ seg]
  let core0 := seg.take (endpos + 1).toNat
  let tail2 := (seg.drop (endpos + 1).toNat).take 2
  let lineComments : Str :=
    if notFortran2 tail2 || acc.fyppCont then
      seg.drop (endpos + 1).toNat
    else []
  let newline := core0.getLast? == some '\n'
  let core1 := stripWs core0
  let cont1 := if !core1.isEmpty then false else acc.contn
  let cont2 := if core1.getLast? == some '&' then true else cont1
  -- `line_comments.strip()[-1] == '&'`; on a whitespace-only
  -- trailing part the source raises IndexError, modelled as false.
  let fypp' :=
    if !lineComments.isEmpty then
      (fyppLine2 tail2 || acc.fyppCont) &&
        (stripWs lineComments).getLast? == some '&'
    else acc.fyppCont
  let core2 := stripAmp core1
  let comments' := acc.comments ++ [rstripNl lineComments]
  let nlSuffix : Str := if newline then ['\n'] else []
  let joined' :=
    if !(stripWs acc.joined).isEmpty then
      rstripNl acc.joined ++ core2 ++ nlSuffix
    else omp ++ core2 ++ nlSuffix
  ⟨joined', comments', lines', cont2, fypp'⟩

/-- The `while 1:` loop of `next_fortran_line`.  Each iteration fills the
queues if they are empty, pops one segment, and either breaks (returning
the accumulated triple) or processes the segment and continues.  `none`
means the fuel ran out before the loop broke. -/
def nflLoopF : Nat → ISState → CharFilter → Acc →
    Option (Str × List Str × List Str × ISState)
  | 0, _, _, _ => none
  | fuel + 1, st, si, acc =>
    let fill := if st.lineBuffer.isEmpty then fillBuffer acc.fyppCont si st
                else (st, si)
    let st1 := fill.1
    let si1 := fill.2
    match st1.lineBuffer with
    | [] => none
    | seg :: bufRest =>
      let endpos : Int := st1.endposQ.headD 0
      let omp : Str := st1.ompQ.headD []
      let st2 : ISState :=
        { st1 with lineBuffer := bufRest, endposQ := st1.endposQ.tail,
                   ompQ := st1.ompQ.tail }
      if seg.isEmpty then some (acc.joined, acc.comments, acc.lines, st2)
      else
        let acc2 := processSeg endpos omp seg acc
        if !(acc2.contn || acc2.fyppCont) then
          some (acc2.joined, acc2.comments, acc2.lines, st2)
        else nflLoopF fuel st2 si1 acc2

/-- One call to `next_fortran_line` (the `string_iter = CharFilter('')`
local is created afresh per call). -/
def nextFortranLine (fuel : Nat) (st : ISState) :
    Option (Str × List Str × List Str × ISState) :=
  nflLoopF fuel st (CharFilter.init [] true true) ⟨[], [], [], false, false⟩

/-- A fresh `InputStream` over the given input lines. -/
def initIS (input : List Str) : ISState :=
  { lineBuffer := [], endposQ := [], ompQ := [], infile := input, lineNr := 0 }

/-- Projection dropping the final stream state. -/
def nflTriple (r : Option (Str × List Str × List Str × ISState)) :
    Option (Str × List Str × List Str) :=
  r.map fun t => (t.1, t.2.1, t.2.2.1)

/-- Triple of the second of two successive calls. -/
def nflSecond (fuel : Nat) (st : ISState) :
    Option (Str × List Str × List Str) :=
  match nextFortranLine fuel st with
  | some (_, _, _, st') => nflTriple (nextFortranLine fuel st')
  | none => none


/-! ## Invariant lemmas -/

theorem cfTrans_inv (cf0 : CharFilter) (c : Char) (w : Str) :
    (cfTrans cf0 c w).1.content = cf0.content ∧
    (cfTrans cf0 c w).1.remaining = cf0.remaining ∧
    (cfTrans cf0 c w).1.fComments = cf0.fComments ∧
    (cfTrans cf0 c w).1.fStrings = cf0.fStrings := by
  unfold cfTrans
  dsimp only
  split_ifs <;> simp

theorem finishD_emit {cf : CharFilter} (h : finishD cf = FinishD.emit) :
    (cf.fComments = true → cf.incomment = []) ∧
    (cf.fStrings = true → cf.instring = []) := by
  unfold finishD at h
  split_ifs at h with h1 h2
  refine ⟨fun hc => ?_, fun hs => ?_⟩
  · rw [hc] at h1
    simpa [List.isEmpty_iff] using h1
  · rw [hs] at h2
    simpa [List.isEmpty_iff] using h2


/-- Invariants of one `__next__` call: the content and the two filter flags
are never modified; the iterator only advances; and a yielded pair
`(p, c)` was produced at the position `p` just before the final remaining
text, after strictly consuming input, with the comment (resp. string) state
empty whenever the corresponding filter is on. -/
theorem cfNextF_inv (fuel : Nat) :
    ∀ cf : CharFilter,
      (cfNextF fuel cf).2.content = cf.content ∧
      (cfNextF fuel cf).2.fComments = cf.fComments ∧
      (cfNextF fuel cf).2.fStrings = cf.fStrings ∧
      (cfNextF fuel cf).2.remaining.length ≤ cf.remaining.length ∧
      (∀ p c, (cfNextF fuel cf).1 = CFRes.yield p c →
        (cfNextF fuel cf).2.remaining.length < cf.remaining.length ∧
        (cf.remaining.length ≤ cf.content.length →
          p + 1 + (cfNextF fuel cf).2.remaining.length = cf.content.length) ∧
        (cf.fComments = true → (cfNextF fuel cf).2.incomment = []) ∧
        (cf.fStrings = true → (cfNextF fuel cf).2.instring = [])) := by
  induction fuel with
  | zero =>
    intro cf
    simp [cfNextF]
  | succ fuel ih =>
    intro cf
    rcases hrem : cf.remaining with _ | ⟨c, rest⟩
    · simp [cfNextF, hrem]
    · have hlen : cf.remaining.length = rest.length + 1 := by rw [hrem]; rfl
      rcases htr : cfTrans { cf with remaining := rest } c (c :: rest.take 1)
        with ⟨cf1, k⟩
      have hc1 := cfTrans_inv { cf with remaining := rest } c (c :: rest.take 1)
      rw [htr] at hc1
      dsimp only at hc1
      obtain ⟨hcon, hrem1, hfc, hfs⟩ := hc1
      simp only [cfNextF, hrem, htr]
      cases k
      case plain =>
        rcases hf : finishD cf1 with _ | _ | _ <;> simp only [hf]
        · -- FinishD.stop
          refine ⟨hcon, hfc, hfs, ?_, ?_⟩
          · rw [hrem1]; simp
          · intro p c' hy
            simp at hy
        · -- FinishD.skip
          obtain ⟨ih1, ih2, ih3, ih4, ih5⟩ := ih cf1
          rw [hrem1] at ih4
          refine ⟨ih1.trans hcon, ih2.trans hfc, ih3.trans hfs, ?_, ?_⟩
          · simp only [List.length_cons]; omega
          · intro p c' hy
            obtain ⟨hy1, hy2, hy3, hy4⟩ := ih5 p c' hy
            rw [hrem1] at hy1
            refine ⟨by simp only [List.length_cons]; omega, ?_, ?_, ?_⟩
            · intro hle
              simp only [List.length_cons] at hle
              have hle' : cf1.remaining.length ≤ cf1.content.length := by
                rw [hrem1, hcon]; omega
              rw [← hcon]
              exact hy2 hle'
            · intro h
              exact hy3 (by rw [hfc, h])
            · intro h
              exact hy4 (by rw [hfs, h])
        · -- FinishD.emit
          refine ⟨hcon, hfc, hfs, ?_, ?_⟩
          · rw [hrem1]; simp
          · intro p c' hy
            have hp : p = cf.content.length - (rest.length + 1) := by
              injection hy with h1 h2
              exact h1.symm
            obtain ⟨hcom, hstr⟩ := finishD_emit hf
            refine ⟨by rw [hrem1]; simp only [List.length_cons]; omega, ?_, ?_, ?_⟩
            · intro hle
              simp only [List.length_cons] at hle
              rw [hp, hrem1]
              omega
            · intro h
              exact hcom (by rw [hfc, h])
            · intro h
              exact hstr (by rw [hfs, h])
      case strSkip =>
        obtain ⟨ih1, ih2, ih3, ih4, ih5⟩ := ih cf1
        rw [hrem1] at ih4
        refine ⟨ih1.trans hcon, ih2.trans hfc, ih3.trans hfs, ?_, ?_⟩
        · simp only [List.length_cons]; omega
        · intro p c' hy
          obtain ⟨hy1, hy2, hy3, hy4⟩ := ih5 p c' hy
          rw [hrem1] at hy1
          refine ⟨by simp only [List.length_cons]; omega, ?_, ?_, ?_⟩
          · intro hle
            simp only [List.length_cons] at hle
            have hle' : cf1.remaining.length ≤ cf1.content.length := by
              rw [hrem1, hcon]; omega
            rw [← hcon]
            exact hy2 hle'
          · intro h
            exact hy3 (by rw [hfc, h])
          · intro h
            exact hy4 (by rw [hfs, h])
      case closeSkip =>
        obtain ⟨ih1, ih2, ih3, ih4, ih5⟩ := ih cf1
        rcases h1 : cfNextF fuel cf1 with ⟨r1, cfA⟩
        rw [h1] at ih1 ih2 ih3 ih4
        dsimp only at ih1 ih2 ih3 ih4
        rw [hrem1] at ih4
        simp only [h1]
        cases r1
        case stop =>
          refine ⟨ih1.trans hcon, ih2.trans hfc, ih3.trans hfs, ?_, ?_⟩
          · simp only [List.length_cons]; omega
          · intro p c' hy
            simp at hy
        case yield pp cc =>
          obtain ⟨ihA1, ihA2, ihA3, ihA4, ihA5⟩ := ih cfA
          have hAc : cfA.content = cf.content := ih1.trans hcon
          have hAfc : cfA.fComments = cf.fComments := ih2.trans hfc
          have hAfs : cfA.fStrings = cf.fStrings := ih3.trans hfs
          refine ⟨ihA1.trans hAc, ihA2.trans hAfc, ihA3.trans hAfs, ?_, ?_⟩
          · simp only [List.length_cons]; omega
          · intro p c' hy
            obtain ⟨hy1, hy2, hy3, hy4⟩ := ihA5 p c' hy
            refine ⟨by simp only [List.length_cons]; omega, ?_, ?_, ?_⟩
            · intro hle
              simp only [List.length_cons] at hle
              have hle' : cfA.remaining.length ≤ cfA.content.length := by
                rw [hAc]; omega
              have heq := hy2 hle'
              rw [hAc] at heq
              exact heq
            · intro h
              exact hy3 (by rw [hAfc, h])
            · intro h
              exact hy4 (by rw [hAfs, h])


/-- Specialization of `cfNextF_inv` to the sufficient-fuel wrapper. -/
theorem cfNext_inv (cf : CharFilter) :
    (cfNext cf).2.content = cf.content ∧
    (cfNext cf).2.fComments = cf.fComments ∧
    (cfNext cf).2.fStrings = cf.fStrings ∧
    (cfNext cf).2.remaining.length ≤ cf.remaining.length ∧
    (∀ p c, (cfNext cf).1 = CFRes.yield p c →
      (cfNext cf).2.remaining.length < cf.remaining.length ∧
      (cf.remaining.length ≤ cf.content.length →
        p + 1 + (cfNext cf).2.remaining.length = cf.content.length) ∧
      (cf.fComments = true → (cfNext cf).2.incomment = []) ∧
      (cf.fStrings = true → (cfNext cf).2.instring = [])) :=
  cfNextF_inv (cf.remaining.length + 1) cf

theorem take_drop_append {l : Str} {a b : Nat} (h : a ≤ b) :
    (l.take b).drop a ++ l.drop b = l.drop a := by
  rw [List.drop_take]
  conv_rhs => rw [← List.take_append_drop (b - a) (l.drop a)]
  congr 1
  rw [List.drop_drop]
  congr 1
  omega

theorem zipWith_append_append {α : Type} (f : α → α → α)
    {a b : List α} (x y : α) (h : a.length = b.length) :
    List.zipWith f (a ++ [x]) (b ++ [y]) = List.zipWith f a b ++ [f x y] := by
  rw [List.zipWith_append _ _ _ _ _ h]
  rfl

theorem replaceOnce_of_prefixed {s l : Str} (hne : s ≠ [])
    (h : s.isPrefixOf l = true) : replaceOnce s l = l.drop s.length := by
  cases l with
  | nil =>
    cases s with
    | nil => exact absurd rfl hne
    | cons a s' => simp [List.isPrefixOf] at h
  | cons c r =>
    rw [replaceOnce, if_pos h]

/-- Loop invariant of the boundary-splitting scan: reading the recorded
sentinel-plus-segment texts back (in order) reproduces the pending sentinel
and the scanned part of the line; the sentinel queue stays in lockstep with
the segment queue; once a segment exists the pending sentinel is empty;
`line_start` never runs ahead of `pos + 1`, which stays within the line;
the segment list only grows; and while no segment has been recorded the
pending sentinel and `line_start` are unchanged. -/
theorem scanSplitF_inv (line : Str) (fuel : Nat) :
    ∀ (cf : CharFilter) (ls : Nat) (omp : Str) (segs : List Str)
      (eps : List Int) (omps : List Str) (po : Option Nat),
      cf.content = line →
      ls + cf.remaining.length ≤ line.length →
      omps.length = segs.length →
      (segs ≠ [] → omp = []) →
      ls ≤ posP1O po →
      posP1O po ≤ line.length →
      (scanSplitF line fuel cf ls omp segs eps omps po).omps.length
          = (scanSplitF line fuel cf ls omp segs eps omps po).segs.length ∧
      ((scanSplitF line fuel cf ls omp segs eps omps po).segs ≠ [] →
        (scanSplitF line fuel cf ls omp segs eps omps po).ompLeft = []) ∧
      (List.zipWith (· ++ ·)
            (scanSplitF line fuel cf ls omp segs eps omps po).omps
            (scanSplitF line fuel cf ls omp segs eps omps po).segs).flatten
          ++ (scanSplitF line fuel cf ls omp segs eps omps po).ompLeft
          ++ line.drop (scanSplitF line fuel cf ls omp segs eps omps po).lineStart
        = (List.zipWith (· ++ ·) omps segs).flatten ++ omp ++ line.drop ls ∧
      (scanSplitF line fuel cf ls omp segs eps omps po).lineStart
          ≤ posP1O (scanSplitF line fuel cf ls omp segs eps omps po).posO ∧
      posP1O (scanSplitF line fuel cf ls omp segs eps omps po).posO
          ≤ line.length ∧
      segs.length ≤ (scanSplitF line fuel cf ls omp segs eps omps po).segs.length ∧
      ((scanSplitF line fuel cf ls omp segs eps omps po).segs = segs →
        (scanSplitF line fuel cf ls omp segs eps omps po).ompLeft = omp ∧
        (scanSplitF line fuel cf ls omp segs eps omps po).lineStart = ls) := by
  induction fuel with
  | zero =>
    intro cf ls omp segs eps omps po hcon hle hlen homp hls hpp
    exact ⟨hlen, homp, rfl, hls, hpp, le_refl _, fun _ => ⟨rfl, rfl⟩⟩
  | succ fuel ih =>
    intro cf ls omp segs eps omps po hcon hle hlen homp hls hpp
    obtain ⟨hn1, hn2, hn3, hn4, hn5⟩ := cfNext_inv cf
    rcases hn : cfNext cf with ⟨r1, cf'⟩
    rw [hn] at hn1 hn2 hn3 hn4 hn5
    dsimp only at hn1 hn2 hn3 hn4 hn5
    cases r1 with
    | stop =>
      simp only [scanSplitF, hn]
      refine ⟨hlen, homp, ?_, ?_, ?_, ?_, ?_⟩ <;> trivial
    | yield p c =>
      obtain ⟨hd, heq, -, -⟩ := hn5 p c rfl
      have hpeq : p + 1 + cf'.remaining.length = line.length := by
        rw [← hcon]
        exact heq (by rw [hcon]; omega)
      have hlsp : ls ≤ p + 1 := by omega
      simp only [scanSplitF, hn]
      by_cases hbd : (c = ';' || decide (p + 1 = line.length)) = true
      · rw [if_pos hbd]
        have := ih cf' (p + 1) [] (segs ++ [(line.take (p + 1)).drop ls])
          (eps ++ [(p : Int) - (ls : Int)]) (omps ++ [omp]) (some p)
          (hn1.trans hcon) (by omega)
          (by simp [hlen]) (by intro; rfl)
          (le_refl _) (by simp only [posP1O]; omega)
        obtain ⟨g1, g2, g3, g4, g5, g6, g7⟩ := this
        have hgrow : segs.length + 1
            ≤ (scanSplitF line fuel cf' (p + 1) []
                (segs ++ [(line.take (p + 1)).drop ls])
                (eps ++ [(p : Int) - (ls : Int)]) (omps ++ [omp])
                (some p)).segs.length := by
          simpa using g6
        refine ⟨g1, g2, ?_, g4, g5, by omega, ?_⟩
        · rw [g3]
          rw [zipWith_append_append _ _ _ hlen]
          simp only [List.flatten_append, List.flatten_cons, List.flatten_nil,
            List.append_nil, List.nil_append, List.append_assoc]
          congr 2
          exact take_drop_append hlsp
        · intro hsame
          exfalso
          have := congrArg List.length hsame
          omega
      · rw [if_neg hbd]
        exact ih cf' ls omp segs eps omps (some p)
          (hn1.trans hcon) (by omega) hlen homp
          (by simp only [posP1O]; omega) (by simp only [posP1O]; omega)

/-- The filtered output never exceeds the scanned text in length (each
yielded character strictly consumes input). -/
theorem cfRunF_len (fuel : Nat) :
    ∀ cf : CharFilter, (cfRunF fuel cf).length ≤ cf.remaining.length := by
  induction fuel with
  | zero => intro cf; simp [cfRunF]
  | succ fuel ih =>
    intro cf
    obtain ⟨-, -, -, -, hn5⟩ := cfNext_inv cf
    rcases hn : cfNext cf with ⟨r1, cf'⟩
    rw [hn] at hn5
    dsimp only at hn5
    cases r1 with
    | stop => simp [cfRunF, hn]
    | yield p c =>
      obtain ⟨hd, -, -, -⟩ := hn5 p c rfl
      simp only [cfRunF, hn, List.length_cons]
      have := ih cf'
      omega

/-- The `comments` and `lines` accumulators of the assembler loop grow in
lockstep: every non-break iteration appends exactly one entry to each. -/
theorem nflLoopF_len (fuel : Nat) :
    ∀ (st : ISState) (si : CharFilter) (acc : Acc)
      (out : Str × List Str × List Str × ISState),
      nflLoopF fuel st si acc = some out →
      acc.comments.length = acc.lines.length →
      out.2.1.length = out.2.2.1.length := by
  induction fuel with
  | zero => intro st si acc out h _; simp [nflLoopF] at h
  | succ fuel ih =>
    intro st si acc out h hacc
    rw [nflLoopF] at h
    split at h
    · exact absurd h (by simp)
    · dsimp only at h
      repeat' split at h
      all_goals
        first
        | exact ih _ _ _ _ h (by simp [processSeg, hacc])
        | (rw [Option.some_inj] at h
           rw [← h]
           simp [processSeg, hacc])

/-- At end of input with an empty queue, the fill step reads the empty
string and queues exactly one empty segment (with end position `len('')`
and an empty sentinel). -/
theorem fillBuffer_eof (fy : Bool) (si : CharFilter) (st : ISState)
    (hb : st.lineBuffer = []) (hf : st.infile = []) :
    fillBuffer fy si st =
      ({ st with
          lineBuffer := [([] : Str)],
          endposQ := st.endposQ ++ [(0 : Int)],
          ompQ := st.ompQ ++ [([] : Str)],
          infile := [],
          lineNr := st.lineNr + 1 }, si.update [] true true) := by
  rw [fillBuffer, hf]
  simp only [readline]
  rw [show expandTabs [] = [] from rfl,
    show sentinelSplit [] = (([] : Str), ([] : Str)) from rfl]
  dsimp only
  rw [hb]
  rw [show fillSegs fy [] si [] [] = ([([] : Str)], [(0 : Int)], [([] : Str)])
    from rfl]
  rw [show boundaryScan si [] []
      = ⟨[], [], [], none, 0, [], si.update [] true true⟩ from rfl]
  simp

/-- When the pending queue is empty and the input is exhausted, one more
loop iteration reads the empty string, queues one empty segment, pops it
and breaks, returning exactly the accumulated triple. -/
theorem nflLoopF_eof (fuel : Nat) (st : ISState) (si : CharFilter) (acc : Acc)
    (hb : st.lineBuffer = []) (hf : st.infile = []) :
    nflTriple (nflLoopF (fuel + 1) st si acc)
      = some (acc.joined, acc.comments, acc.lines) := by
  rw [nflLoopF]
  rw [show (if st.lineBuffer.isEmpty then fillBuffer acc.fyppCont si st
        else (st, si)) = fillBuffer acc.fyppCont si st from by rw [hb]; simp]
  rw [fillBuffer_eof acc.fyppCont si st hb hf]
  simp [nflTriple]


/-- The sentinel captured by `OMP_SUBS_RE` always starts with `!$` and in
particular is non-empty. -/
theorem ompSubsSearch_shape {l s : Str} (h : ompSubsSearch l = some s) :
    s ≠ [] := by
  unfold ompSubsSearch at h
  split at h
  · split at h
    · split_ifs at h <;> (rw [Option.some_inj] at h; rw [← h]; simp)
    · rw [Option.some_inj] at h; rw [← h]; simp
  · simp at h

/-! ## Claims -/

/-- Claim C1, counterexample: for the single input line `"  !$ x\n"` — an
OpenMP sentinel preceded by whitespace — the `physicalLines` entries of all
successive calls concatenate to `"!$   x\n"`, not to the (tab-expanded)
input: the sentinel is reattached at column 0 although it originally stood
after the leading blanks, so the round-trip is not byte-for-byte. -/
theorem claim1_roundtrip_cex :
    (nextFortranLine 32 (initIS [("  !$ x\n").toList])).map
        (fun t => t.2.2.1) = some [("!$   x\n").toList] ∧
    nflSecond 32 (initIS [("  !$ x\n").toList]) = some ([], [], []) ∧
    List.flatten [("!$   x\n").toList] ≠ expandTabs (("  !$ x\n").toList) :=
  ⟨by decide, by decide, by decide⟩

/-- The scan invariant instantiated at the assembler's boundary scan:
the recorded sentinels and segments plus the pending sentinel and the
unscanned tail reproduce the sentinel-stripped line, with the bookkeeping
facts used by the fill step. -/
theorem boundaryScan_inv (si : CharFilter) (line2 omp0 : Str) :
    (boundaryScan si line2 omp0).omps.length
        = (boundaryScan si line2 omp0).segs.length ∧
    ((boundaryScan si line2 omp0).segs ≠ [] →
      (boundaryScan si line2 omp0).ompLeft = []) ∧
    (List.zipWith (· ++ ·) (boundaryScan si line2 omp0).omps
          (boundaryScan si line2 omp0).segs).flatten
        ++ (boundaryScan si line2 omp0).ompLeft
        ++ line2.drop (boundaryScan si line2 omp0).lineStart
      = omp0 ++ line2 ∧
    (boundaryScan si line2 omp0).lineStart
        ≤ posP1O (boundaryScan si line2 omp0).posO ∧
    posP1O (boundaryScan si line2 omp0).posO ≤ line2.length ∧
    ((boundaryScan si line2 omp0).segs = [] →
      (boundaryScan si line2 omp0).ompLeft = omp0 ∧
      (boundaryScan si line2 omp0).lineStart = 0) := by
  obtain ⟨g1, g2, g3, g4, g5, g6, g7⟩ := scanSplitF_inv line2
    (line2.length + 1) (si.update line2 true true) 0 omp0 [] [] [] none rfl
    (by simp [CharFilter.update]) rfl (fun hh => absurd rfl hh)
    (by simp [posP1O]) (by simp [posP1O])
  rw [show scanSplitF line2 (line2.length + 1) (si.update line2 true true)
        0 omp0 [] [] [] none = boundaryScan si line2 omp0 from rfl]
    at g1 g2 g3 g4 g5 g7
  refine ⟨g1, g2, ?_, g4, g5, g7⟩
  rw [g3]
  simp

/-- Claim C1, amended: the `physicalLines` entries recorded by the loop are
exactly `what_omp + segment` for the queued pairs, in FIFO order (second
conjunct, line 227 of the source); and prefixing the queued sentinels to
the queued segments of one physical line reconstructs the tab-expanded
line whenever the sentinel — if any — sits at the very start of the line
and the line is fully recorded: by the boundary scan itself, by the
comment re-scan fallback, by the whole-line fypp-continuation fallback
from a clean scan, or by the empty-buffer fallback on an empty line.  A
sentinel preceded by whitespace (see the counterexample) or a line whose
tail no path records (an unclosed string) breaks the byte-for-byte round
trip. -/
theorem claim1_line_roundtrip (raw : Str) (restIn : List Str) (fy : Bool)
    (si : CharFilter) (st : ISState)
    (hin : st.infile = raw :: restIn)
    (hbuf : st.lineBuffer = []) (hompq : st.ompQ = [])
    (hsent : (match ompSubsSearch (expandTabs raw) with
              | some s => s.isPrefixOf (expandTabs raw)
              | none => true) = true)
    (hcov :
      ((boundaryScan si (sentinelSplit (expandTabs raw)).2
            (sentinelSplit (expandTabs raw)).1).lineStart
          = (sentinelSplit (expandTabs raw)).2.length ∧
        (boundaryScan si (sentinelSplit (expandTabs raw)).2
            (sentinelSplit (expandTabs raw)).1).segs ≠ []) ∨
      (posP1O (boundaryScan si (sentinelSplit (expandTabs raw)).2
            (sentinelSplit (expandTabs raw)).1).posO
          < (sentinelSplit (expandTabs raw)).2.length ∧ fy = false ∧
        (commentFallback (sentinelSplit (expandTabs raw)).2
          (posP1O (boundaryScan si (sentinelSplit (expandTabs raw)).2
              (sentinelSplit (expandTabs raw)).1).posO)).isSome = true) ∨
      (posP1O (boundaryScan si (sentinelSplit (expandTabs raw)).2
            (sentinelSplit (expandTabs raw)).1).posO
          < (sentinelSplit (expandTabs raw)).2.length ∧ fy = true ∧
        (boundaryScan si (sentinelSplit (expandTabs raw)).2
            (sentinelSplit (expandTabs raw)).1).segs = []) ∨
      ((sentinelSplit (expandTabs raw)).2 = [] ∧
        ompSubsSearch (expandTabs raw) = none)) :
    (List.zipWith (· ++ ·) (fillBuffer fy si st).1.ompQ
        (fillBuffer fy si st).1.lineBuffer).flatten = expandTabs raw ∧
    (∀ (e : Int) (o sg : Str) (a : Acc),
      (processSeg e o sg a).lines = a.lines ++ [o ++ sg]) := by
  refine ⟨?_, fun e o sg a => rfl⟩
  have hline : (sentinelSplit (expandTabs raw)).1
      ++ (sentinelSplit (expandTabs raw)).2 = expandTabs raw := by
    rcases hss : ompSubsSearch (expandTabs raw) with _ | s
    · rw [sentinelSplit, hss]
      rfl
    · rw [sentinelSplit, hss]
      dsimp only
      rw [hss] at hsent
      have hpre : s.isPrefixOf (expandTabs raw) = true := by
        simpa using hsent
      have hsne : s ≠ [] := ompSubsSearch_shape hss
      rw [replaceOnce_of_prefixed hsne hpre]
      obtain ⟨t, ht⟩ := List.isPrefixOf_iff_prefix.mp hpre
      rw [← ht, List.drop_left]
  have hread : readline st.infile = (raw, restIn) := by rw [hin]; rfl
  have hfb1 : (fillBuffer fy si st).1.ompQ
      = st.ompQ ++ (fillSegs fy st.lineBuffer si
          (sentinelSplit (expandTabs raw)).2
          (sentinelSplit (expandTabs raw)).1).2.2 := by
    rw [fillBuffer, hread]
  have hfb2 : (fillBuffer fy si st).1.lineBuffer
      = st.lineBuffer ++ (fillSegs fy st.lineBuffer si
          (sentinelSplit (expandTabs raw)).2
          (sentinelSplit (expandTabs raw)).1).1 := by
    rw [fillBuffer, hread]
  rw [hfb1, hfb2, hbuf, hompq]
  simp only [List.nil_append]
  obtain ⟨g1, g2, g3, g4, g5, g6⟩ := boundaryScan_inv si
    (sentinelSplit (expandTabs raw)).2 (sentinelSplit (expandTabs raw)).1
  rcases hcov with ⟨hA1, hA2⟩ | ⟨hB1, hB2, hB3⟩ | ⟨hC1, hC2, hC3⟩ | ⟨hD1, hD2⟩
  · -- the scan recorded the whole line
    have hnp : ¬ (posP1O (boundaryScan si (sentinelSplit (expandTabs raw)).2
        (sentinelSplit (expandTabs raw)).1).posO
          < (sentinelSplit (expandTabs raw)).2.length) := by omega
    rw [fillSegs]
    dsimp only
    rw [if_neg hnp]
    dsimp only
    rw [if_neg (by simp [hA2])]
    have hz := g3
    rw [hA1, List.drop_length, List.append_nil, g2 hA2, List.append_nil] at hz
    rw [hz, hline]
  · -- the comment fallback recorded the rest of the line
    obtain ⟨pa, hpa⟩ := Option.isSome_iff_exists.mp hB3
    have hfy : ¬ (fy = true) := by simp [hB2]
    rw [fillSegs]
    dsimp only
    rw [if_pos hB1]
    rw [if_neg hfy]
    rw [hpa]
    dsimp only
    rw [if_neg (by simp)]
    dsimp only
    rw [zipWith_append_append _ _ _ g1]
    rw [List.flatten_append]
    simp only [List.flatten_cons, List.flatten_nil, List.append_nil]
    simp only [List.append_assoc] at g3 ⊢
    rw [g3]
    exact hline
  · -- the fypp-continuation fallback recorded the whole line
    obtain ⟨h61, h62⟩ := g6 hC3
    have homps : (boundaryScan si (sentinelSplit (expandTabs raw)).2
        (sentinelSplit (expandTabs raw)).1).omps = [] := by
      rw [hC3] at g1
      exact List.length_eq_zero.mp g1
    rw [fillSegs]
    dsimp only
    rw [if_pos hC1]
    rw [if_pos hC2]
    dsimp only
    rw [if_neg (by simp)]
    dsimp only
    rw [hC3, homps, h61]
    simpa using hline
  · -- empty line and no sentinel: the empty-buffer fallback
    have hl : expandTabs raw = [] := by
      have hsp : (sentinelSplit (expandTabs raw)).2 = expandTabs raw := by
        rw [sentinelSplit, hD2]
      rw [← hsp, hD1]
    rw [fillSegs]
    dsimp only
    rw [hl]
    rw [show sentinelSplit [] = (([] : Str), ([] : Str)) from rfl]
    rw [show boundaryScan si [] []
        = ⟨[], [], [], none, 0, [], si.update [] true true⟩ from rfl]
    simp [posP1O]

theorem claim1_line_roundtrip_witness :
    (initIS [("!$ x ! c\n").toList]).infile = ("!$ x ! c\n").toList :: [] ∧
    (initIS [("!$ x ! c\n").toList]).lineBuffer = [] ∧
    (initIS [("!$ x ! c\n").toList]).ompQ = [] ∧
    (match ompSubsSearch (expandTabs (("!$ x ! c\n").toList)) with
      | some s => s.isPrefixOf (expandTabs (("!$ x ! c\n").toList))
      | none => true) = true ∧
    (List.zipWith (· ++ ·)
        (fillBuffer false (CharFilter.init [] true true)
          (initIS [("!$ x ! c\n").toList])).1.ompQ
        (fillBuffer false (CharFilter.init [] true true)
          (initIS [("!$ x ! c\n").toList])).1.lineBuffer).flatten
      = expandTabs (("!$ x ! c\n").toList) :=
  ⟨rfl, rfl, rfl, by decide,
    (claim1_line_roundtrip (("!$ x ! c\n").toList) [] false
      (CharFilter.init [] true true) (initIS [("!$ x ! c\n").toList])
      rfl rfl rfl (by decide) (by decide)).1⟩

/-- Claim C2, counterexample: on the input `"a=1;b=2\n"` the first call
returns the joined text `"a=1;"`, not `"a=1\n"`: `line_core` is
`line[:endpos + 1]` with `endpos` pointing at the semicolon, so the
semicolon stays in the code part and no newline is appended. -/
theorem claim2_semicolon_cex :
    (nextFortranLine 32 (initIS [("a=1;b=2\n").toList])).map (fun t => t.1)
        = some (("a=1;").toList) ∧
    (("a=1;").toList : Str) ≠ ("a=1\n").toList :=
  ⟨by decide, by decide⟩

/-- Claim C2, amended: the two statements do come out as two separate
logical lines, but the first joined text is `"a=1;"` (semicolon kept, no
newline) and the second is `"b=2\n"`. -/
theorem claim2_semicolon_amended :
    nflTriple (nextFortranLine 32 (initIS [("a=1;b=2\n").toList]))
      = some (("a=1;").toList, [([] : Str)], [("a=1;").toList]) ∧
    nflSecond 32 (initIS [("a=1;b=2\n").toList])
      = some (("b=2\n").toList, [([] : Str)], [("b=2\n").toList]) :=
  ⟨by decide, by decide⟩

/-- Claim C3, counterexample: on `"!$omp parallel\n"` the joined text is
`"!$ompparallel\n"`, not `"!$omp parallel\n"`: the code part is
whitespace-stripped (`" parallel\n"` becomes `"parallel"`) before the
sentinel is reattached, so the separating blank is lost. -/
theorem claim3_omp_cex :
    (nextFortranLine 32 (initIS [("!$omp parallel\n").toList])).map
        (fun t => t.1) = some (("!$ompparallel\n").toList) ∧
    (("!$ompparallel\n").toList : Str) ≠ ("!$omp parallel\n").toList :=
  ⟨by decide, by decide⟩

/-- Claim C3, amended: the sentinel is preserved as code — the line is not
discarded as a comment (the comment list entry is empty and the original
line is recorded intact) — but the joined text is `"!$ompparallel\n"`,
with the blank between sentinel and code lost. -/
theorem claim3_omp_amended :
    nflTriple (nextFortranLine 32 (initIS [("!$omp parallel\n").toList]))
      = some (("!$ompparallel\n").toList, [([] : Str)],
          [("!$omp parallel\n").toList]) := by
  decide

/-- Claim C4: every triple returned by `next_fortran_line` has
`comments` and `lines` of equal length — each non-break loop iteration
appends exactly one entry to each, one per physical-line segment
consumed. -/
theorem claim4_comments_lines_length (fuel : Nat) (st : ISState)
    (out : Str × List Str × List Str × ISState)
    (h : nextFortranLine fuel st = some out) :
    out.2.1.length = out.2.2.1.length :=
  nflLoopF_len fuel st (CharFilter.init [] true true)
    ⟨[], [], [], false, false⟩ out h rfl

theorem claim4_comments_lines_length_witness :
    nextFortranLine 8 (initIS [("a=1\n").toList])
        = some (("a=1\n").toList, [([] : Str)], [("a=1\n").toList],
            { lineBuffer := [], endposQ := [], ompQ := [], infile := [],
              lineNr := 1 }) ∧
    [([] : Str)].length = [("a=1\n").toList].length :=
  ⟨by decide,
    claim4_comments_lines_length 8 (initIS [("a=1\n").toList])
      (("a=1\n").toList, [([] : Str)], [("a=1\n").toList],
        { lineBuffer := [], endposQ := [], ompQ := [], infile := [],
          lineNr := 1 }) (by decide)⟩

/-- Claim C5: in the configuration the assembler's splitting scan uses
(both filters on), a yielded `';'` is always scanned in `Code` state: the
scanner state returned with the yield has empty in-string/interpolation
and in-comment fields, and since `';'` matches no marker pattern the state
was the same when the character was examined.  Semicolons inside strings,
comments or interpolation spans are skipped or stop the scan, so they
never become statement boundaries in `scanSplitF`. -/
theorem claim5_semicolon_code_state (fuel : Nat) (cf : CharFilter) (p : Nat)
    (hc : cf.fComments = true) (hs : cf.fStrings = true)
    (hy : (cfNextF fuel cf).1 = CFRes.yield p ';') :
    (cfNextF fuel cf).2.instring = [] ∧
    (cfNextF fuel cf).2.incomment = [] := by
  obtain ⟨-, -, -, -, h5⟩ := cfNextF_inv fuel cf
  obtain ⟨-, -, h3, h4⟩ := h5 p ';' hy
  exact ⟨h4 hs, h3 hc⟩

theorem claim5_semicolon_code_state_witness :
    (CharFilter.init [';'] true true).fComments = true ∧
    (CharFilter.init [';'] true true).fStrings = true ∧
    (cfNextF 2 (CharFilter.init [';'] true true)).1 = CFRes.yield 0 ';' ∧
    ((cfNextF 2 (CharFilter.init [';'] true true)).2.instring = [] ∧
      (cfNextF 2 (CharFilter.init [';'] true true)).2.incomment = []) :=
  ⟨rfl, rfl, by decide,
    claim5_semicolon_code_state 2 (CharFilter.init [';'] true true) 0
      rfl rfl (by decide)⟩

/-! ## Stepping lemmas for the scanner inside an interpolation span -/


theorem fyppClose2_not_brace (a : Char) (w : Str) (h : ¬ a = '}') :
    fyppClose2 (a :: w) = false := by
  match w with
  | [] => rfl
  | [b] => simp [fyppClose2, h]
  | b :: c :: ws => rfl

theorem hasClosePair_cons (a : Char) (w : Str) (h : hasClosePair (a :: w) = false) :
    fyppClose2 (a :: w.take 1) = false ∧ hasClosePair w = false := by
  cases w with
  | nil => exact ⟨rfl, rfl⟩
  | cons b w' =>
    rw [hasClosePair] at h
    simp only [Bool.or_eq_false_iff] at h
    exact ⟨h.1, h.2⟩

theorem take_one_append (xs ys : Str) : (xs ++ ys).take 1 = (xs ++ ys.take 1).take 1 := by
  cases xs with
  | nil => simp [List.take_take]
  | cons a xs' => simp

theorem cfNextF_fypp_step (fuel : Nat) (cf : CharFilter) (c : Char) (rest : Str)
    (hrem : cf.remaining = c :: rest) (hs : cf.instring.isEmpty = false)
    (hf : cf.infypp = true) (hic : cf.incomment = [])
    (hfs : cf.fStrings = true)
    (hcl : fyppClose2 (c :: rest.take 1) = false) :
    cfNextF (fuel + 1) cf = cfNextF fuel { cf with remaining := rest } := by
  obtain ⟨co, rem, ins, ify, inc, fc, fs⟩ := cf
  dsimp only at hrem hs hf hic hfs ⊢
  subst hrem hf hic hfs
  simp [cfNextF, cfTrans, finishD, hs, hcl]

theorem cfNextF_open_step (fuel : Nat) (cf : CharFilter) (c : Char) (rest : Str)
    (hrem : cf.remaining = c :: rest)
    (hs : cf.instring = []) (hic : cf.incomment = [])
    (hfs : cf.fStrings = true)
    (hop : fyppOpen2 (c :: rest.take 1) = true) :
    cfNextF (fuel + 1) cf =
      cfNextF fuel { cf with remaining := rest,
                             instring := c :: rest.take 1, infypp := true } := by
  obtain ⟨co, rem, ins, ify, inc, fc, fs⟩ := cf
  dsimp only at hrem hs hic hfs ⊢
  subst hrem hs hic hfs
  simp [cfNextF, cfTrans, finishD, hop]

theorem cfNextF_fypp_skip (m : Str) : ∀ (fuel : Nat) (cf : CharFilter) (tail : Str),
    cf.remaining = m ++ tail → cf.instring.isEmpty = false → cf.infypp = true →
    cf.incomment = [] → cf.fStrings = true →
    hasClosePair (m ++ tail.take 1) = false →
    cfNextF (m.length + fuel) cf = cfNextF fuel { cf with remaining := tail } := by
  induction m with
  | nil =>
    intro fuel cf tail hrem _ _ _ _ _
    obtain ⟨co, rem, ins, ify, inc, fc, fs⟩ := cf
    dsimp only at hrem ⊢
    subst hrem
    simp
  | cons a m' ih =>
    intro fuel cf tail hrem hs hf hic hfs hm
    rw [List.cons_append] at hrem
    have hw : fyppClose2 (a :: (m' ++ tail.take 1).take 1) = false ∧
        hasClosePair (m' ++ tail.take 1) = false := by
      apply hasClosePair_cons
      exact hm
    have hwin : fyppClose2 (a :: (m' ++ tail).take 1) = false := by
      rw [take_one_append m' tail]
      exact hw.1
    have hlen : (a :: m').length + fuel = (m'.length + fuel) + 1 := by
      simp [List.length_cons]; omega
    rw [hlen]
    rw [cfNextF_fypp_step (m'.length + fuel) cf a (m' ++ tail) hrem hs hf hic hfs hwin]
    exact ih fuel { cf with remaining := m' ++ tail } tail rfl hs hf hic hfs hw.2



theorem cfNextF_emit_plain (fuel : Nat) (cf : CharFilter) (c : Char) (rest : Str)
    (hrem : cf.remaining = c :: rest) (hs : cf.instring = [])
    (hic : cf.incomment = [])
    (hop : fyppOpen2 (c :: rest.take 1) = false)
    (hnf : notFortran2 (c :: rest.take 1) = false)
    (hq : isQuoteC c = false) :
    cfNextF (fuel + 1) cf =
      (CFRes.yield (cf.content.length - (rest.length + 1)) c,
       { cf with remaining := rest }) := by
  obtain ⟨co, rem, ins, ify, inc, fc, fs⟩ := cf
  dsimp only at hrem hs hic ⊢
  subst hrem hs hic
  simp [cfNextF, cfTrans, finishD, hop, hnf, hq]

theorem cfNextF_close_skip (fuel : Nat) (cf : CharFilter) (c : Char) (rest : Str)
    (hrem : cf.remaining = c :: rest) (hs : cf.instring.isEmpty = false)
    (hf : cf.infypp = true) (hic : cf.incomment = [])
    (hfs : cf.fStrings = true)
    (hcl : fyppClose2 (c :: rest.take 1) = true) :
    cfNextF (fuel + 1) cf =
      (match cfNextF fuel { cf with remaining := rest, instring := [],
                                    infypp := false } with
       | (CFRes.stop, cfA) => (CFRes.stop, cfA)
       | (CFRes.yield _ _, cfA) => cfNextF fuel cfA) := by
  obtain ⟨co, rem, ins, ify, inc, fc, fs⟩ := cf
  dsimp only at hrem hs hf hic hfs ⊢
  subst hrem hf hic hfs
  simp [cfNextF, cfTrans, finishD, hs, hcl]

theorem cfNext_empty (cf : CharFilter) (h : cf.remaining = []) :
    cfNext cf = (CFRes.stop, cf) := by
  obtain ⟨co, rem, ins, ify, inc, fc, fs⟩ := cf
  dsimp only at h
  subst h
  rfl

theorem cfRunF_empty (fuel : Nat) (cf : CharFilter) (h : cf.remaining = []) :
    cfRunF fuel cf = [] := by
  cases fuel with
  | zero => rfl
  | succ n =>
    rw [cfRunF, cfNext_empty cf h]



theorem cfNext_of_fuel (cf : CharFilter) (c : Char) (rest : Str)
    (res : CFRes × CharFilter) (hrem : cf.remaining = c :: rest)
    (h : cfNextF (rest.length + 1 + 1) cf = res) : cfNext cf = res := by
  rw [cfNext, hrem]
  simp only [List.length_cons]
  exact h

theorem cfNextF_open_emit (fuel : Nat) (cf : CharFilter) (c : Char) (rest : Str)
    (hrem : cf.remaining = c :: rest) (hs : cf.instring = [])
    (hic : cf.incomment = []) (hfs : cf.fStrings = false)
    (hop : fyppOpen2 (c :: rest.take 1) = true) :
    cfNextF (fuel + 1) cf =
      (CFRes.yield (cf.content.length - (rest.length + 1)) c,
       { cf with remaining := rest, instring := c :: rest.take 1,
                 infypp := true }) := by
  obtain ⟨co, rem, ins, ify, inc, fc, fs⟩ := cf
  dsimp only at hrem hs hic hfs ⊢
  subst hrem hs hic hfs
  simp [cfNextF, cfTrans, finishD, hop]

theorem cfNextF_fypp_emit (fuel : Nat) (cf : CharFilter) (c : Char) (rest : Str)
    (hrem : cf.remaining = c :: rest) (hs : cf.instring.isEmpty = false)
    (hf : cf.infypp = true) (hic : cf.incomment = [])
    (hfs : cf.fStrings = false)
    (hcl : fyppClose2 (c :: rest.take 1) = false) :
    cfNextF (fuel + 1) cf =
      (CFRes.yield (cf.content.length - (rest.length + 1)) c,
       { cf with remaining := rest }) := by
  obtain ⟨co, rem, ins, ify, inc, fc, fs⟩ := cf
  dsimp only at hrem hs hf hic hfs ⊢
  subst hrem hf hic hfs
  simp [cfNextF, cfTrans, finishD, hs, hcl]

theorem cfNextF_close_emit (fuel : Nat) (cf : CharFilter) (c : Char) (rest : Str)
    (hrem : cf.remaining = c :: rest) (hs : cf.instring.isEmpty = false)
    (hf : cf.infypp = true) (hic : cf.incomment = [])
    (hfs : cf.fStrings = false)
    (hcl : fyppClose2 (c :: rest.take 1) = true) :
    cfNextF (fuel + 1) cf =
      (CFRes.yield (cf.content.length - (rest.length + 1)) c,
       { cf with remaining := rest, instring := [], infypp := false }) := by
  obtain ⟨co, rem, ins, ify, inc, fc, fs⟩ := cf
  dsimp only at hrem hs hf hic hfs ⊢
  subst hrem hf hic hfs
  simp [cfNextF, cfTrans, finishD, hs, hcl]

theorem cfRunF_fypp_emits (m : Str) : ∀ (fuel : Nat) (cf : CharFilter) (tail : Str),
    cf.remaining = m ++ tail → cf.instring.isEmpty = false → cf.infypp = true →
    cf.incomment = [] → cf.fStrings = false →
    hasClosePair (m ++ tail.take 1) = false →
    cfRunF (m.length + fuel) cf = m ++ cfRunF fuel { cf with remaining := tail } := by
  induction m with
  | nil =>
    intro fuel cf tail hrem _ _ _ _ _
    obtain ⟨co, rem, ins, ify, inc, fc, fs⟩ := cf
    dsimp only at hrem ⊢
    subst hrem
    simp
  | cons a m' ih =>
    intro fuel cf tail hrem hs hf hic hfs hm
    rw [List.cons_append] at hrem
    have hw := hasClosePair_cons a (m' ++ tail.take 1) hm
    have hwin : fyppClose2 (a :: (m' ++ tail).take 1) = false := by
      rw [take_one_append m' tail]
      exact hw.1
    have hlen : (a :: m').length + fuel = (m'.length + fuel) + 1 := by
      simp [List.length_cons]; omega
    have hnx : cfNext cf =
        (CFRes.yield (cf.content.length - ((m' ++ tail).length + 1)) a,
         { cf with remaining := m' ++ tail }) :=
      cfNext_of_fuel cf a (m' ++ tail) _ hrem
        (cfNextF_fypp_emit ((m' ++ tail).length + 1) cf a (m' ++ tail)
          hrem hs hf hic hfs hwin)
    rw [hlen, cfRunF, hnx]
    dsimp only
    rw [ih fuel { cf with remaining := m' ++ tail } tail rfl hs hf hic hfs hw.2]
    rfl



theorem fyppSpan_filtered (d e : Char) (m : Str)
    (h1 : fyppOpen2 [d, '{'] = true)
    (h2 : fyppClose2 ['}', d] = true)
    (h3 : fyppOpen2 [d, e] = false)
    (h4 : notFortran2 [d, e] = false)
    (h5 : isQuoteC d = false)
    (h6 : notFortran2 [e] = false)
    (h7 : isQuoteC e = false)
    (hm : hasClosePair (m ++ ['}']) = false) :
    filterAllStr (d :: '{' :: (m ++ '}' :: d :: [e])) true true = [e] := by
  have hcl1 : fyppClose2 ('{' :: (m ++ '}' :: d :: [e]).take 1) = false :=
    fyppClose2_not_brace '{' _ (by decide)
  have hd3 : cfNextF 3 ⟨d :: '{' :: (m ++ '}' :: d :: [e]), d :: [e], [], false, [], true, true⟩
      = (CFRes.yield ((d :: '{' :: (m ++ '}' :: d :: [e])).length - 2) d,
         ⟨d :: '{' :: (m ++ '}' :: d :: [e]), [e], [], false, [], true, true⟩) := by
    rw [show (3 : Nat) = 2 + 1 from rfl]
    exact cfNextF_emit_plain 2 _ d [e] rfl rfl rfl h3 h4 h5
  have he3 : cfNextF 3 ⟨d :: '{' :: (m ++ '}' :: d :: [e]), [e], [], false, [], true, true⟩
      = (CFRes.yield ((d :: '{' :: (m ++ '}' :: d :: [e])).length - 1) e,
         ⟨d :: '{' :: (m ++ '}' :: d :: [e]), [], [], false, [], true, true⟩) := by
    rw [show (3 : Nat) = 2 + 1 from rfl]
    exact cfNextF_emit_plain 2 _ e [] rfl rfl rfl rfl h6 h7
  have hF : cfNextF (m.length + 5 + 1)
        (CharFilter.init (d :: '{' :: (m ++ '}' :: d :: [e])) true true)
      = (CFRes.yield ((d :: '{' :: (m ++ '}' :: d :: [e])).length - 1) e,
         ⟨d :: '{' :: (m ++ '}' :: d :: [e]), [], [], false, [], true, true⟩) := by
    rw [cfNextF_open_step (m.length + 5)
      (CharFilter.init (d :: '{' :: (m ++ '}' :: d :: [e])) true true)
      d ('{' :: (m ++ '}' :: d :: [e])) rfl rfl rfl rfl h1]
    show cfNextF (m.length + 5) ⟨d :: '{' :: (m ++ '}' :: d :: [e]),
      '{' :: (m ++ '}' :: d :: [e]), [d, '{'], true, [], true, true⟩ = _
    rw [show m.length + 5 = m.length + 4 + 1 from rfl]
    rw [cfNextF_fypp_step (m.length + 4) ⟨d :: '{' :: (m ++ '}' :: d :: [e]),
      '{' :: (m ++ '}' :: d :: [e]), [d, '{'], true, [], true, true⟩
      '{' (m ++ '}' :: d :: [e]) rfl rfl rfl rfl rfl hcl1]
    show cfNextF (m.length + 4) ⟨d :: '{' :: (m ++ '}' :: d :: [e]),
      m ++ '}' :: d :: [e], [d, '{'], true, [], true, true⟩ = _
    rw [cfNextF_fypp_skip m 4 ⟨d :: '{' :: (m ++ '}' :: d :: [e]),
      m ++ '}' :: d :: [e], [d, '{'], true, [], true, true⟩
      ('}' :: d :: [e]) rfl rfl rfl rfl rfl hm]
    show cfNextF 4 ⟨d :: '{' :: (m ++ '}' :: d :: [e]),
      '}' :: d :: [e], [d, '{'], true, [], true, true⟩ = _
    rw [show (4 : Nat) = 3 + 1 from rfl]
    rw [cfNextF_close_skip 3 ⟨d :: '{' :: (m ++ '}' :: d :: [e]),
      '}' :: d :: [e], [d, '{'], true, [], true, true⟩
      '}' (d :: [e]) rfl rfl rfl rfl rfl h2]
    show (match cfNextF 3 ⟨d :: '{' :: (m ++ '}' :: d :: [e]),
        d :: [e], [], false, [], true, true⟩ with
      | (CFRes.stop, cfA) => (CFRes.stop, cfA)
      | (CFRes.yield _ _, cfA) => cfNextF 3 cfA) = _
    rw [hd3]
    dsimp only
    rw [he3]
  have hnext : cfNext (CharFilter.init (d :: '{' :: (m ++ '}' :: d :: [e])) true true)
      = (CFRes.yield ((d :: '{' :: (m ++ '}' :: d :: [e])).length - 1) e,
         ⟨d :: '{' :: (m ++ '}' :: d :: [e]), [], [], false, [], true, true⟩) := by
    rw [cfNext]
    show cfNextF ((d :: '{' :: (m ++ '}' :: d :: [e])).length + 1)
      (CharFilter.init (d :: '{' :: (m ++ '}' :: d :: [e])) true true) = _
    have hfe : (d :: '{' :: (m ++ '}' :: d :: [e])).length + 1 = m.length + 5 + 1 := by
      simp only [List.length_cons, List.length_append, List.length_nil]
    rw [hfe]
    exact hF
  rw [filterAllStr, CharFilter.filterAll]
  have hfuel : (CharFilter.init (d :: '{' :: (m ++ '}' :: d :: [e])) true true).remaining.length + 1
      = m.length + 5 + 1 := by
    simp only [CharFilter.init, List.length_cons, List.length_append, List.length_nil]
  rw [hfuel, cfRunF, hnext]
  dsimp only
  rw [cfRunF_empty (m.length + 5) _ rfl]



theorem fyppSpan_verbatim (d e : Char) (m : Str)
    (h1 : fyppOpen2 [d, '{'] = true)
    (h2 : fyppClose2 ['}', d] = true)
    (h3 : fyppOpen2 [d, e] = false)
    (h4 : notFortran2 [d, e] = false)
    (h5 : isQuoteC d = false)
    (h6 : notFortran2 [e] = false)
    (h7 : isQuoteC e = false)
    (hm : hasClosePair (m ++ ['}']) = false) :
    filterAllStr (d :: '{' :: (m ++ '}' :: d :: [e])) true false
      = d :: '{' :: (m ++ '}' :: d :: [e]) := by
  have hcl1 : fyppClose2 ('{' :: (m ++ '}' :: d :: [e]).take 1) = false :=
    fyppClose2_not_brace '{' _ (by decide)
  obtain ⟨p1, hn1⟩ : ∃ p,
      cfNext (CharFilter.init (d :: '{' :: (m ++ '}' :: d :: [e])) true false)
        = (CFRes.yield p d, ⟨d :: '{' :: (m ++ '}' :: d :: [e]),
            '{' :: (m ++ '}' :: d :: [e]), [d, '{'], true, [], true, false⟩) :=
    ⟨_, cfNext_of_fuel _ d ('{' :: (m ++ '}' :: d :: [e])) _ rfl
      (cfNextF_open_emit (('{' :: (m ++ '}' :: d :: [e])).length + 1) _ d
        ('{' :: (m ++ '}' :: d :: [e])) rfl rfl rfl rfl h1)⟩
  obtain ⟨p2, hn2⟩ : ∃ p,
      cfNext (⟨d :: '{' :: (m ++ '}' :: d :: [e]),
          '{' :: (m ++ '}' :: d :: [e]), [d, '{'], true, [], true, false⟩ : CharFilter)
        = (CFRes.yield p '{', ⟨d :: '{' :: (m ++ '}' :: d :: [e]),
            m ++ '}' :: d :: [e], [d, '{'], true, [], true, false⟩) :=
    ⟨_, cfNext_of_fuel _ '{' (m ++ '}' :: d :: [e]) _ rfl
      (cfNextF_fypp_emit ((m ++ '}' :: d :: [e]).length + 1) _ '{'
        (m ++ '}' :: d :: [e]) rfl rfl rfl rfl rfl hcl1)⟩
  obtain ⟨p3, hn3⟩ : ∃ p,
      cfNext (⟨d :: '{' :: (m ++ '}' :: d :: [e]),
          '}' :: d :: [e], [d, '{'], true, [], true, false⟩ : CharFilter)
        = (CFRes.yield p '}', ⟨d :: '{' :: (m ++ '}' :: d :: [e]),
            d :: [e], [], false, [], true, false⟩) :=
    ⟨_, cfNext_of_fuel _ '}' (d :: [e]) _ rfl
      (cfNextF_close_emit ((d :: [e]).length + 1) _ '}' (d :: [e])
        rfl rfl rfl rfl rfl h2)⟩
  obtain ⟨p4, hn4⟩ : ∃ p,
      cfNext (⟨d :: '{' :: (m ++ '}' :: d :: [e]),
          d :: [e], [], false, [], true, false⟩ : CharFilter)
        = (CFRes.yield p d, ⟨d :: '{' :: (m ++ '}' :: d :: [e]),
            [e], [], false, [], true, false⟩) :=
    ⟨_, cfNext_of_fuel _ d [e] _ rfl
      (cfNextF_emit_plain ([e].length + 1) _ d [e] rfl rfl rfl h3 h4 h5)⟩
  obtain ⟨p5, hn5⟩ : ∃ p,
      cfNext (⟨d :: '{' :: (m ++ '}' :: d :: [e]),
          [e], [], false, [], true, false⟩ : CharFilter)
        = (CFRes.yield p e, ⟨d :: '{' :: (m ++ '}' :: d :: [e]),
            [], [], false, [], true, false⟩) :=
    ⟨_, cfNext_of_fuel _ e [] _ rfl
      (cfNextF_emit_plain ([].length + 1) _ e [] rfl rfl rfl rfl h6 h7)⟩
  rw [filterAllStr, CharFilter.filterAll]
  have hfuel : (CharFilter.init (d :: '{' :: (m ++ '}' :: d :: [e])) true false).remaining.length + 1
      = m.length + 5 + 1 := by
    simp only [CharFilter.init, List.length_cons, List.length_append, List.length_nil]
  rw [hfuel, cfRunF, hn1]
  dsimp only
  rw [show m.length + 5 = m.length + 4 + 1 from rfl, cfRunF, hn2]
  dsimp only
  rw [cfRunF_fypp_emits m 4 ⟨d :: '{' :: (m ++ '}' :: d :: [e]),
    m ++ '}' :: d :: [e], [d, '{'], true, [], true, false⟩
    ('}' :: d :: [e]) rfl rfl rfl rfl rfl hm]
  show d :: '{' :: (m ++ cfRunF 4 ⟨d :: '{' :: (m ++ '}' :: d :: [e]),
    '}' :: d :: [e], [d, '{'], true, [], true, false⟩)
    = d :: '{' :: (m ++ '}' :: d :: [e])
  rw [show (4 : Nat) = 3 + 1 from rfl, cfRunF, hn3]
  dsimp only
  rw [show (3 : Nat) = 2 + 1 from rfl, cfRunF, hn4]
  dsimp only
  rw [show (2 : Nat) = 1 + 1 from rfl, cfRunF, hn5]
  dsimp only
  rw [cfRunF_empty 1 ⟨d :: '{' :: (m ++ '}' :: d :: [e]),
    [], [], false, [], true, false⟩ rfl]

/-- Claim C6, counterexample: with both filters on, filtering `"#{a}#b"`
yields `""`, not `"b"`.  After the `}#` close marker the source calls
`__next__` twice; the first call re-scans the `#` of the marker, whose
window `"#b"` matches the preprocessor-comment pattern, and the comment
short-circuit ends the scan — the span is not removed "as a unit" and the
close marker is (partly) classified as a comment. -/
theorem claim6_interp_cex :
    filterAllStr ['#', '{', 'a', '}', '#', 'b'] true true = [] ∧
    ([] : Str) ≠ ['b'] :=
  ⟨by decide, by decide⟩

/-- Claim C6, amended: the three open markers never match the comment
pattern, and for spans closed by `}$` or `}@` the claimed behaviour holds
for every payload whose character windows (including the one overlapping
the closing `}`) contain no close marker, followed by any ordinary
character (not `{`, `:`, `!` or a quote, which would interact with the
marker re-scan): with `filter_strings` on the whole span including both
two-character markers is removed as a unit, leaving only the following
character, and with `filter_strings` off the whole text is emitted
verbatim.  Only a `}#` close marker can be re-scanned into a comment
start (see the counterexample). -/
theorem claim6_interp_amended (d e : Char) (m : Str)
    (hd : d = '$' ∨ d = '@')
    (hm : hasClosePair (m ++ ['}']) = false)
    (he1 : ¬ e = '{') (he2 : ¬ e = ':') (he3 : ¬ e = '!')
    (he4 : isQuoteC e = false) :
    notFortran2 ['#', '{'] = false ∧ notFortran2 ['$', '{'] = false ∧
    notFortran2 ['@', '{'] = false ∧
    filterAllStr (d :: '{' :: (m ++ '}' :: d :: [e])) true true = [e] ∧
    filterAllStr (d :: '{' :: (m ++ '}' :: d :: [e])) true false
      = d :: '{' :: (m ++ '}' :: d :: [e]) := by
  have h6 : notFortran2 [e] = false := by simp [notFortran2, he3]
  rcases hd with hd | hd <;> subst hd
  · exact ⟨by decide, by decide, by decide,
      fyppSpan_filtered '$' e m (by decide) (by decide) (by simp [fyppOpen2, he1])
        (by simp [notFortran2, he2]) (by decide) h6 he4 hm,
      fyppSpan_verbatim '$' e m (by decide) (by decide) (by simp [fyppOpen2, he1])
        (by simp [notFortran2, he2]) (by decide) h6 he4 hm⟩
  · exact ⟨by decide, by decide, by decide,
      fyppSpan_filtered '@' e m (by decide) (by decide) (by simp [fyppOpen2, he1])
        (by simp [notFortran2, he2]) (by decide) h6 he4 hm,
      fyppSpan_verbatim '@' e m (by decide) (by decide) (by simp [fyppOpen2, he1])
        (by simp [notFortran2, he2]) (by decide) h6 he4 hm⟩

theorem claim6_interp_amended_witness :
    (('@' : Char) = '$' ∨ ('@' : Char) = '@') ∧
    hasClosePair (['a', 'b'] ++ ['}']) = false ∧
    ¬ ('b' : Char) = '{' ∧ ¬ ('b' : Char) = ':' ∧ ¬ ('b' : Char) = '!' ∧
    isQuoteC 'b' = false ∧
    (notFortran2 ['#', '{'] = false ∧ notFortran2 ['$', '{'] = false ∧
     notFortran2 ['@', '{'] = false ∧
     filterAllStr ('@' :: '{' :: (['a', 'b'] ++ '}' :: '@' :: ['b'])) true true = ['b'] ∧
     filterAllStr ('@' :: '{' :: (['a', 'b'] ++ '}' :: '@' :: ['b'])) true false
       = '@' :: '{' :: (['a', 'b'] ++ '}' :: '@' :: ['b'])) :=
  ⟨by decide, by decide, by decide, by decide, by decide, by decide,
   claim6_interp_amended '@' 'b' ['a', 'b'] (by decide) (by decide) (by decide)
     (by decide) (by decide) (by decide)⟩


/-- Claim C7, counterexample: on the comment-only line `"! hi\n"` the
call returns an empty joined text although a non-empty physical line was
read and the source is not exhausted — an empty joined text does not
imply end of input, and a non-empty physical line can produce an empty
joined text. -/
theorem claim7_empty_cex :
    nflTriple (nextFortranLine 32 (initIS [("! hi\n").toList]))
      = some ([], [("! hi").toList], [("! hi\n").toList]) ∧
    (("! hi\n").toList : Str) ≠ [] :=
  ⟨by decide, by decide⟩

/-- Claim C7, amended: only the forward direction holds — when the line
source is exhausted at the start of a call (and no segments are pending),
`next_fortran_line` returns an empty joined text with empty comment and
line lists.  The converse fails: comment-only or blank-content lines also
yield an empty joined text (see the counterexample). -/
theorem claim7_eof_empty (fuel : Nat) (st : ISState)
    (hb : st.lineBuffer = []) (hf : st.infile = []) :
    nflTriple (nextFortranLine (fuel + 1) st) = some ([], [], []) :=
  nflLoopF_eof fuel st (CharFilter.init [] true true)
    ⟨[], [], [], false, false⟩ hb hf

theorem claim7_eof_empty_witness :
    (initIS []).lineBuffer = [] ∧ (initIS []).infile = [] ∧
    nflTriple (nextFortranLine 1 (initIS [])) = some ([], [], []) :=
  ⟨rfl, rfl, claim7_eof_empty 0 (initIS []) rfl rfl⟩

/-- Claim C8: when the accumulated logical line is mid-continuation
(`continuation = true`) but the segment queue is empty and the source is
exhausted, the next loop iteration of `next_fortran_line` raises no error:
it reads the empty string, pops the resulting empty segment and breaks,
returning exactly the triple accumulated so far (the possibly truncated
joined line). -/
theorem claim8_truncated_continuation (fuel : Nat) (st : ISState)
    (si : CharFilter) (acc : Acc) (_hcont : acc.contn = true)
    (hb : st.lineBuffer = []) (hf : st.infile = []) :
    nflTriple (nflLoopF (fuel + 1) st si acc)
      = some (acc.joined, acc.comments, acc.lines) :=
  nflLoopF_eof fuel st si acc hb hf

theorem claim8_truncated_continuation_witness :
    (⟨("x = 1 \n").toList, [([] : Str)], [("x = 1 &\n").toList], true,
        false⟩ : Acc).contn = true ∧
    (initIS []).lineBuffer = [] ∧ (initIS []).infile = [] ∧
    nflTriple (nflLoopF 4 (initIS []) (CharFilter.init [] true true)
        ⟨("x = 1 \n").toList, [([] : Str)], [("x = 1 &\n").toList], true,
          false⟩)
      = some (("x = 1 \n").toList, [([] : Str)], [("x = 1 &\n").toList]) :=
  ⟨rfl, rfl, rfl,
    claim8_truncated_continuation 3 (initIS []) (CharFilter.init [] true true)
      ⟨("x = 1 \n").toList, [([] : Str)], [("x = 1 &\n").toList], true,
        false⟩ rfl rfl rfl⟩

/-- Claim C9: `CharFilter.update` (the spec's `resetTo`) replaces only the
scanned content, the iterator position and the two filter flags; the
in-string delimiter field, the interpolation flag and the in-comment field
keep exactly the values they had before the call, so an open string or
interpolation span is remembered across the rebind. -/
theorem claim9_update_frame (cf : CharFilter) (s : Str) (fc fs : Bool) :
    (cf.update s fc fs).instring = cf.instring ∧
    (cf.update s fc fs).infypp = cf.infypp ∧
    (cf.update s fc fs).incomment = cf.incomment ∧
    (cf.update s fc fs).content = s ∧
    (cf.update s fc fs).remaining = s ∧
    (cf.update s fc fs).fComments = fc ∧
    (cf.update s fc fs).fStrings = fs :=
  ⟨rfl, rfl, rfl, rfl, rfl, rfl, rfl⟩

/-- Claim C10: every `__next__` call only advances the underlying iterator,
a call that yields a character strictly consumes input, and consequently
iterating a `CharFilter` to exhaustion terminates with at most as many
output characters as the input has — `filter_all` is a total function on
strings. -/
theorem claim10_next_terminates (fuel : Nat) (cf : CharFilter) :
    (cfNextF fuel cf).2.remaining.length ≤ cf.remaining.length ∧
    (∀ p c, (cfNextF fuel cf).1 = CFRes.yield p c →
      (cfNextF fuel cf).2.remaining.length < cf.remaining.length) ∧
    (∀ s fc fs, (filterAllStr s fc fs).length ≤ s.length) := by
  obtain ⟨-, -, -, h4, h5⟩ := cfNextF_inv fuel cf
  refine ⟨h4, fun p c hy => (h5 p c hy).1, fun s fc fs => ?_⟩
  have h := cfRunF_len (s.length + 1) (CharFilter.init s fc fs)
  simpa [filterAllStr, CharFilter.filterAll, CharFilter.init] using h

theorem claim10_next_terminates_witness :
    (cfNextF 2 (CharFilter.init ['a'] true true)).1 = CFRes.yield 0 'a' ∧
    (cfNextF 2 (CharFilter.init ['a'] true true)).2.remaining.length
      < (CharFilter.init ['a'] true true).remaining.length :=
  ⟨by decide,
    (claim10_next_terminates 2 (CharFilter.init ['a'] true true)).2.1 0 'a'
      (by decide)⟩

end FparseUtils
